import Mathlib

/-!
Verification of the `postws` WebSocket JSON sender (`main.go`).

The Go program is embedded shallowly:

* pure helpers (`buildURL`, `printMessage`, the trailing-argument loop of
  `parseFlags`, JSON marshalling of the data map) become Lean functions
  operating on `String` / `List Char`;
* the standard-library collaborators the program calls (`net/url.Parse`,
  `net.JoinHostPort`, `strings.*`, `encoding/json`) are modelled by Lean
  functions that follow the Go standard library sources on the fragment of
  inputs this program exercises (no percent-escaping, userinfo, query or
  fragment components; these are noted on each definition);
* the effectful `run` function becomes a trace semantics: a `NetEnv` record
  resolves every source of runtime nondeterminism (dial outcome, send
  outcome, frames delivered, terminal read error, timer race outcome) and
  `runExec` returns the ordered list of observable events together with
  `run`'s result.
-/

namespace PostWS

/-! ### Go string primitives -/

/-- Model of Go `strings.Contains(s, string(c))` for a one-character needle. -/
def containsCharGo (s : String) (c : Char) : Bool :=
  s.toList.contains c

/-- Model of Go `strings.HasPrefix`. -/
def hasPrefixGo (s pre : String) : Bool :=
  pre.toList.isPrefixOf s.toList

/-- Model of Go `strings.HasSuffix`. -/
def hasSuffixGo (s suf : String) : Bool :=
  suf.toList.isSuffixOf s.toList

/-- Whitespace predicate of Go `unicode.IsSpace` (the White_Space property:
Latin-1 spaces plus the Unicode space code points). -/
def isSpaceGo (c : Char) : Bool :=
  [0x9, 0xa, 0xb, 0xc, 0xd, 0x20, 0x85, 0xa0, 0x1680,
   0x2028, 0x2029, 0x202f, 0x205f, 0x3000].contains c.toNat
  || (decide (0x2000 ≤ c.toNat) && decide (c.toNat ≤ 0x200a))

/-- Model of Go `strings.TrimSpace`: drop leading and trailing whitespace. -/
def trimSpaceGo (s : String) : String :=
  (((s.toList.dropWhile isSpaceGo).reverse.dropWhile isSpaceGo).reverse).asString

/-- Split a character list at the first `'='`; helper for `splitN2EqGo`. -/
def splitEqAux : List Char → List Char × List Char
  | [] => ([], [])
  | c :: t =>
    if c = '=' then ([], t)
    else
      let p := splitEqAux t
      (c :: p.1, p.2)

/-- Model of Go `strings.SplitN(s, "=", 2)` under the precondition that `s`
contains `'='` (the only way `parseFlags` calls it): the pair of the text
before the first `'='` and everything after it.  When `s` has no `'='` this
returns `(s, "")`; the caller never reaches that case. -/
def splitN2EqGo (s : String) : String × String :=
  let p := splitEqAux s.toList
  (p.1.asString, p.2.asString)

/-- Characters of a string up to (excluding) the first occurrence of `c`. -/
def takeUntil (c : Char) : List Char → List Char
  | [] => []
  | x :: t => if x = c then [] else x :: takeUntil c t

/-- Model of Go `strings.TrimPrefix(s, "[")` on character lists. -/
def dropBracket : List Char → List Char
  | '[' :: t => t
  | l => l

/-! ### net/url and net collaborators -/

/-- The fields of Go `net/url.URL` that `postws` reads or writes.  Userinfo,
query, fragment, opaque part and percent-escaping are not modelled: the
program never produces or consumes them. -/
structure GoURL where
  scheme : String
  host : String
  path : String
deriving DecidableEq, Repr

/-- Model of the `stripPort` helper behind Go `url.URL.Hostname()`: if the
host has no colon it is returned whole; otherwise, if a `']'` occurs, the
text before it with a leading `'['` removed; otherwise the text before the
first colon. -/
def stripPortGo (hostport : String) : String :=
  let cs := hostport.toList
  if cs.contains ':' = false then hostport
  else if cs.contains ']' then (dropBracket (takeUntil ']' cs)).asString
  else (takeUntil ':' cs).asString

/-- Model of Go `net.JoinHostPort`: brackets the host when it contains a
colon, then appends `":" ++ port`. -/
def joinHostPortGo (host port : String) : String :=
  if host.toList.contains ':' then "[" ++ host ++ "]:" ++ port
  else host ++ ":" ++ port

/-- Lower-case an ASCII letter, as Go's scheme parsing does. -/
def lowerGo (c : Char) : Char :=
  if 'A' ≤ c ∧ c ≤ 'Z' then Char.ofNat (c.toNat + 32) else c

/-- Model of the `getScheme` step of `net/url.Parse`.  Returns `none` on a
parse error (a colon before any scheme character), `some none` when the
input has no scheme, and `some (some (scheme, rest))` when a scheme is
present; `acc` holds the scheme characters read so far, in reverse. -/
def getSchemeAux : List Char → List Char → Option (Option (String × List Char))
  | [], _ => some none
  | c :: cs, acc =>
    if c = ':' then
      if acc = [] then none
      else some (some ((acc.reverse.map lowerGo).asString, cs))
    else if c.isAlpha then getSchemeAux cs (c :: acc)
    else if (c.isDigit ∨ c = '+' ∨ c = '-' ∨ c = '.') ∧ acc ≠ [] then
      getSchemeAux cs (c :: acc)
    else some none

/-- Characters of the remainder from the first occurrence of `c` on. -/
def dropFrom (c : Char) : List Char → List Char
  | [] => []
  | x :: t => if x = c then x :: t else dropFrom c t

/-- Assemble a `GoURL` once the scheme has been split off: an authority is
present exactly when the rest starts with `//`, and then extends to the next
`'/'`.  Query, fragment and userinfo are outside the modelled fragment. -/
def parseAfterScheme (scheme : String) (rest : List Char) : Option GoURL :=
  match rest with
  | '/' :: '/' :: rest2 =>
    some ⟨scheme, (takeUntil '/' rest2).asString, (dropFrom '/' rest2).asString⟩
  | _ => some ⟨scheme, "", rest.asString⟩

/-- Model of `net/url.Parse` on the fragment of URLs `postws` handles
(absolute `scheme://host/path` URLs and bare paths; no userinfo, query,
fragment, opaque part, or percent-escapes). -/
def urlParse (raw : String) : Option GoURL :=
  match getSchemeAux raw.toList [] with
  | none => none
  | some none => parseAfterScheme "" raw.toList
  | some (some (scheme, rest)) => parseAfterScheme scheme rest

/-! ### buildURL (main.go lines 150-172) -/

/-- The body of `buildURL` after `url.Parse`, embedded from main.go lines
152-171: validate scheme and host, normalize the path to a leading `/`,
override the port when positive, and reassemble the URL string (Go
`url.URL.String()` on the modelled fragment is `scheme ++ "://" ++ host ++
path`). -/
def buildURLFrom (parsed : Option GoURL) (path : String) (port : Int) :
    Except String String :=
  match parsed with
  | none => .error "parse url"
  | some u =>
    if u.scheme = "" then
      .error "url must include scheme, e.g. ws://host or wss://host"
    else if u.scheme ≠ "ws" ∧ u.scheme ≠ "wss" then
      .error "unsupported scheme (use ws:// or wss://)"
    else if u.host = "" then
      .error "url must include host"
    else
      let path2 := if hasPrefixGo path "/" then path else "/" ++ path
      let host2 :=
        if port > 0 then joinHostPortGo (stripPortGo u.host) (toString port)
        else u.host
      .ok (u.scheme ++ "://" ++ host2 ++ path2)

/-- Embedding of `buildURL` (main.go lines 150-172): parse the raw URL, then
validate and rebuild. -/
def buildURL (rawURL path : String) (port : Int) : Except String String :=
  buildURLFrom (urlParse rawURL) path port

/-! ### The trailing-argument loop of parseFlags (main.go lines 66-78) -/

/-- Assignment to a Go `map[string]string`: replace the value when the key is
present, otherwise append the binding.  Lookup and key-set of this list
representation agree with Go map semantics. -/
def mapInsertGo (m : List (String × String)) (k v : String) :
    List (String × String) :=
  if m.any (fun p => decide (p.1 = k)) then
    m.map (fun p => if p.1 = k then (k, v) else p)
  else m ++ [(k, v)]

/-- Lookup in the Go map model: the value bound to `k`, if any. -/
def mapLookupGo : List (String × String) → String → Option String
  | [], _ => none
  | p :: t, k => if p.1 = k then some p.2 else mapLookupGo t k

/-- Embedding of the trailing-argument loop of `parseFlags` (main.go lines
66-76): each token must contain `'='`, is split at the first `'='`, the name
must be non-empty after trimming whitespace, and the (untrimmed) name is
assigned in the data map. -/
def parseDataGo : List String → List (String × String) →
    Except String (List (String × String))
  | [], m => .ok m
  | arg :: rest, m =>
    if containsCharGo arg '=' = false then
      .error ("invalid data " ++ arg ++ " (want Name=Value)")
    else
      let parts := splitN2EqGo arg
      if trimSpaceGo parts.1 = "" then
        .error ("missing name in " ++ arg)
      else
        parseDataGo rest (mapInsertGo m parts.1 parts.2)

/-- The data map built by `parseFlags` from the trailing arguments, starting
from the fresh empty map of main.go line 66. -/
def parseArgsGo (args : List String) : Except String (List (String × String)) :=
  parseDataGo args []

/-! ### encoding/json marshalling of the data map (main.go line 90) -/

/-- Hexadecimal digit characters as used by `encoding/json` (lower case). -/
def hexDigitGo (n : Nat) : Char :=
  if n < 10 then Char.ofNat (48 + n) else Char.ofNat (87 + n)

/-- Per-character escaping of Go `encoding/json`'s string encoder with its
default `escapeHTML = true`: quote, backslash, `\n`, `\r`, `\t` get two-byte
escapes, other control characters and `<`, `>`, `&` get `\u00xx` escapes,
U+2028 and U+2029 get `\u20xx` escapes, everything else is copied. -/
def escCharGo (c : Char) : List Char :=
  if c = '"' then ['\\', '"']
  else if c = '\\' then ['\\', '\\']
  else if c = '\n' then ['\\', 'n']
  else if c = '\r' then ['\\', 'r']
  else if c = '\t' then ['\\', 't']
  else if c = '<' ∨ c = '>' ∨ c = '&' ∨ c.toNat < 0x20 then
    ['\\', 'u', '0', '0', hexDigitGo (c.toNat / 16), hexDigitGo (c.toNat % 16)]
  else if c.toNat = 0x2028 ∨ c.toNat = 0x2029 then
    ['\\', 'u', '2', '0', '2', hexDigitGo (c.toNat % 16)]
  else [c]

/-- Escape every character of a string. -/
def escListGo : List Char → List Char
  | [] => []
  | c :: t => escCharGo c ++ escListGo t

/-- A JSON string literal as Go `encoding/json` writes it. -/
def jsonStringGo (s : String) : String :=
  ('"' :: escListGo s.toList ++ ['"']).asString

/-- Key order used by Go `encoding/json` for maps: entries sorted by key
(`sort.Slice` on the key strings). -/
def sortEntriesGo (m : List (String × String)) : List (String × String) :=
  m.mergeSort (fun a b => decide (a.1 ≤ b.1))

/-- Model of Go `json.Marshal` on a `map[string]string`: a JSON object with
one member per entry, members sorted by key. -/
def jsonMarshalMapGo (m : List (String × String)) : String :=
  "\x7b" ++
    String.intercalate ","
      ((sortEntriesGo m).map (fun kv => jsonStringGo kv.1 ++ ":" ++ jsonStringGo kv.2)) ++
  "\x7d"

/-- Go `json.Marshal` specialised to `map[string]string` never returns an
error (the string encoder has no failure path; invalid UTF-8 cannot occur
for Lean strings), so the `Except` mirrors the Go signature with a dead
error branch. -/
def jsonMarshalGo (m : List (String × String)) : Except String String :=
  .ok (jsonMarshalMapGo m)

/-! ### The run orchestration (main.go lines 81-148) -/

/-- The `options` struct of main.go lines 19-27.  Durations are nanosecond
counts, as Go `time.Duration` is. -/
structure Options where
  baseURL : String
  path : String
  port : Int
  dialTimeout : Int
  readTimeout : Int
  data : List (String × String)
  insecureTLS : Bool
deriving Repr

/-- The error classes `run` can return, named as in the specification's
error table. -/
inductive RunError where
  | urlError (msg : String)
  | schemeMismatch
  | encodingError (msg : String)
  | connectError (msg : String)
  | sendError (msg : String)
deriving DecidableEq, Repr

/-- The phase of `run` before any network activity (main.go lines 82-93):
build the URL, reject `-insecure-skip-verify` on a non-`wss://` URL, and
marshal the payload. -/
def runPreflight (opts : Options) : Except RunError (String × String) :=
  match buildURL opts.baseURL opts.path opts.port with
  | .error e => .error (.urlError e)
  | .ok fullURL =>
    if opts.insecureTLS = true ∧ hasPrefixGo fullURL "wss://" = false then
      .error .schemeMismatch
    else
      match jsonMarshalGo opts.data with
      | .error e => .error (.encodingError e)
      | .ok payload => .ok (fullURL, payload)

/-- Resolution of the runtime nondeterminism of one `run`: the outcome of
the dial, the outcome of the one send, the frames the receive loop reads
before the timeout race is decided, whether the read-timeout timer fires
before the receive task finishes, the frames read between the local close
and the loop's end, and the terminal read error the loop observes. -/
structure NetEnv where
  dial : Except String Unit
  send : Except String Unit
  reads : List String
  timerFires : Bool
  readsAfterClose : List String
  readErr : String

/-- Observable events of one `run`, in order: the handshake status line, the
`sent:` line, the start of the receive goroutine, one `received` per frame
(each printed with `printMessage`), the timeout diagnostic, the close
control frame (code, reason, write-deadline seconds), and the receive
loop's final diagnostic. -/
inductive Event where
  | connected
  | sent (payload : String)
  | recvStarted
  | received (msg : String)
  | timeoutDiag
  | closeSent (code : Nat) (reason : String) (deadlineSec : Nat)
  | readFinished (err : String)
deriving DecidableEq, Repr

/-- The numeric value of `websocket.CloseNormalClosure`. -/
def closeNormalClosure : Nat := 1000

/-- Trace semantics of `run` (main.go lines 81-148) against a `NetEnv`.
Mirrors the source order: preflight, dial (line 102), send (line 112), the
receive goroutine (lines 118-129), and the timeout race (lines 131-145).
When the timer wins the race, the diagnostic is printed, the close control
frame `(CloseNormalClosure, "timeout")` is sent with a one-second deadline,
and the main task then waits for the receive loop, which may read further
frames before observing its terminal error.  Every send-succeeded path
returns `ok`. -/
def runExec (opts : Options) (env : NetEnv) : List Event × Except RunError Unit :=
  match runPreflight opts with
  | .error e => ([], .error e)
  | .ok fp =>
    match env.dial with
    | .error e => ([], .error (.connectError ("dial " ++ fp.1 ++ ": " ++ e)))
    | .ok _ =>
      match env.send with
      | .error e => ([.connected], .error (.sendError e))
      | .ok _ =>
        let pre := [Event.connected, Event.sent fp.2, Event.recvStarted] ++
          env.reads.map Event.received
        if opts.readTimeout > 0 ∧ env.timerFires = true then
          (pre ++ [Event.timeoutDiag,
                   Event.closeSent closeNormalClosure "timeout" 1] ++
             env.readsAfterClose.map Event.received ++
             [Event.readFinished env.readErr],
           .ok ())
        else
          (pre ++ [Event.readFinished env.readErr], .ok ())

/-- Process exit code as `main` derives it from `run`'s result (main.go
lines 37-40). -/
def exitCodeOf : Except RunError Unit → Nat
  | .ok _ => 0
  | .error _ => 1

/-- Scans a trace for a receive-task event (task start, a frame, or the
loop's final diagnostic) occurring before any `sent` event. -/
def recvBeforeSend : List Event → Bool
  | [] => false
  | .sent _ :: _ => false
  | .recvStarted :: _ => true
  | .received _ :: _ => true
  | .readFinished _ :: _ => true
  | _ :: rest => recvBeforeSend rest

/-- Recognises close-control-frame events. -/
def isCloseSent : Event → Bool
  | .closeSent _ _ _ => true
  | _ => false

/-! ### json.Indent and printMessage (main.go lines 174-181) -/

/-- Whitespace accepted between JSON tokens by Go's `encoding/json` scanner. -/
def isSpaceJSONGo (c : Char) : Bool :=
  c = ' ' ∨ c = '\t' ∨ c = '\r' ∨ c = '\n'

/-- Drop leading inter-token whitespace. -/
def skipWS : List Char → List Char
  | [] => []
  | c :: cs => if isSpaceJSONGo c then skipWS cs else c :: cs

/-- Hexadecimal digit as accepted in `\u` escapes. -/
def isHexDigitGo (c : Char) : Bool :=
  c.isDigit ∨ ('a' ≤ c ∧ c ≤ 'f') ∨ ('A' ≤ c ∧ c ≤ 'F')

/-- Scan the body of a JSON string literal (the part after the opening
quote), validating escapes as Go's scanner does, and return the scanned
characters (closing quote included) with the remainder.  `fuel` bounds the
recursion; callers pass at least the input length plus one. -/
def scanStringBody (fuel : Nat) (cs : List Char) : Option (List Char × List Char) :=
  match fuel with
  | 0 => none
  | fuel + 1 =>
    match cs with
    | [] => none
    | c :: rest =>
      if c = '"' then some ([c], rest)
      else if c = '\\' then
        match rest with
        | [] => none
        | e :: rest2 =>
          if e = '"' ∨ e = '\\' ∨ e = '/' ∨ e = 'b' ∨ e = 'f' ∨ e = 'n' ∨
              e = 'r' ∨ e = 't' then
            match scanStringBody fuel rest2 with
            | some p => some (c :: e :: p.1, p.2)
            | none => none
          else if e = 'u' then
            match rest2 with
            | h1 :: h2 :: h3 :: h4 :: rest3 =>
              if isHexDigitGo h1 ∧ isHexDigitGo h2 ∧ isHexDigitGo h3 ∧
                  isHexDigitGo h4 then
                match scanStringBody fuel rest3 with
                | some p => some (c :: e :: h1 :: h2 :: h3 :: h4 :: p.1, p.2)
                | none => none
              else none
            | _ => none
          else none
      else if c.toNat < 0x20 then none
      else
        match scanStringBody fuel rest with
        | some p => some (c :: p.1, p.2)
        | none => none

/-- Longest digit run at the head of the input. -/
def takeDigits : List Char → List Char × List Char
  | [] => ([], [])
  | c :: t =>
    if c.isDigit then
      let p := takeDigits t
      (c :: p.1, p.2)
    else ([], c :: t)

/-- Optional fraction part of a JSON number: a `'.'` must be followed by at
least one digit. -/
def scanFrac : List Char → Option (List Char × List Char)
  | '.' :: rest =>
    match rest with
    | c :: _ =>
      if c.isDigit then
        let p := takeDigits rest
        some ('.' :: p.1, p.2)
      else none
    | [] => none
  | cs => some ([], cs)

/-- Optional exponent part of a JSON number: `e`/`E`, an optional sign, then
at least one digit. -/
def scanExp : List Char → Option (List Char × List Char)
  | [] => some ([], [])
  | e :: rest =>
    if e = 'e' ∨ e = 'E' then
      let sp : List Char × List Char :=
        match rest with
        | c :: t => if c = '+' ∨ c = '-' then ([c], t) else ([], rest)
        | [] => ([], [])
      match sp.2 with
      | c :: _ =>
        if c.isDigit then
          let p := takeDigits sp.2
          some (e :: sp.1 ++ p.1, p.2)
        else none
      | [] => none
    else some ([], e :: rest)

/-- Unsigned JSON number: `0`, or a nonzero digit followed by digits, then
optional fraction and exponent.  Returns the token and the remainder. -/
def scanNumMag : List Char → Option (List Char × List Char)
  | [] => none
  | c :: rest =>
    if c = '0' then
      match scanFrac rest with
      | none => none
      | some fp =>
        match scanExp fp.2 with
        | none => none
        | some ep => some ('0' :: (fp.1 ++ ep.1), ep.2)
    else if c.isDigit then
      let dp := takeDigits rest
      match scanFrac dp.2 with
      | none => none
      | some fp =>
        match scanExp fp.2 with
        | none => none
        | some ep => some (c :: (dp.1 ++ fp.1 ++ ep.1), ep.2)
    else none

/-- JSON number token with optional leading minus. -/
def scanNumber : List Char → Option (List Char × List Char)
  | '-' :: rest =>
    match scanNumMag rest with
    | some p => some ('-' :: p.1, p.2)
    | none => none
  | cs => scanNumMag cs

/-- Match an exact literal tail (`rue`, `alse`, `ull`). -/
def expectLit : List Char → List Char → Option (List Char)
  | [], cs => some cs
  | l :: lt, c :: ct => if c = l then expectLit lt ct else none
  | _ :: _, [] => none

/-- `n` copies of a string, concatenated. -/
def repeatStrGo (s : String) : Nat → String
  | 0 => ""
  | n + 1 => s ++ repeatStrGo s n

/-- The newline Go `json.Indent` writes: newline, the prefix, then the
indent string once per nesting level. -/
def nlIndentGo (pre ind : String) (d : Nat) : String :=
  "\n" ++ pre ++ repeatStrGo ind d

mutual

/-- Re-indent one JSON value sitting at nesting depth `depth`, mirroring
`json.Indent`: string, number and literal tokens are copied verbatim;
objects and arrays get a newline and one more indent level before each
element, a space after each `':'`, and a newline before the closing bracket,
except that empty containers collapse to `{}` / `[]`.  Returns the
re-indented text and the unconsumed remainder; `none` on invalid JSON. -/
def indentValueGo (pre ind : String) (fuel depth : Nat) (cs : List Char) :
    Option (String × List Char) :=
  match fuel with
  | 0 => none
  | fuel + 1 =>
    match cs with
    | [] => none
    | c :: rest =>
      if c = '"' then
        match scanStringBody (rest.length + 1) rest with
        | some p => some ((('"' :: p.1).asString), p.2)
        | none => none
      else if c = '-' ∨ c.isDigit then
        match scanNumber (c :: rest) with
        | some p => some (p.1.asString, p.2)
        | none => none
      else if c = 't' then
        match expectLit ['r', 'u', 'e'] rest with
        | some rem => some ("true", rem)
        | none => none
      else if c = 'f' then
        match expectLit ['a', 'l', 's', 'e'] rest with
        | some rem => some ("false", rem)
        | none => none
      else if c = 'n' then
        match expectLit ['u', 'l', 'l'] rest with
        | some rem => some ("null", rem)
        | none => none
      else if c = '\x7b' then
        match skipWS rest with
        | '\x7d' :: rem => some ("\x7b\x7d", rem)
        | cs1 =>
          match indentMembersGo pre ind fuel (depth + 1) cs1 with
          | some p =>
            some ("\x7b" ++ nlIndentGo pre ind (depth + 1) ++ p.1 ++
              nlIndentGo pre ind depth ++ "\x7d", p.2)
          | none => none
      else if c = '[' then
        match skipWS rest with
        | ']' :: rem => some ("[]", rem)
        | cs1 =>
          match indentItemsGo pre ind fuel (depth + 1) cs1 with
          | some p =>
            some ("[" ++ nlIndentGo pre ind (depth + 1) ++ p.1 ++
              nlIndentGo pre ind depth ++ "]", p.2)
          | none => none
      else none

/-- Members of a JSON object whose member lines sit at indent level
`mdepth`: a string key, `':'`, a value, then either `','` and further
members or the closing `'}'`.  Returns the joined member text and the
remainder after the closing brace. -/
def indentMembersGo (pre ind : String) (fuel mdepth : Nat) (cs : List Char) :
    Option (String × List Char) :=
  match fuel with
  | 0 => none
  | fuel + 1 =>
    match cs with
    | '"' :: rest =>
      match scanStringBody (rest.length + 1) rest with
      | none => none
      | some kp =>
        match skipWS kp.2 with
        | ':' :: rem2 =>
          match indentValueGo pre ind fuel mdepth (skipWS rem2) with
          | none => none
          | some vp =>
            match skipWS vp.2 with
            | ',' :: rem4 =>
              match indentMembersGo pre ind fuel mdepth (skipWS rem4) with
              | none => none
              | some mp =>
                some (('"' :: kp.1).asString ++ ": " ++ vp.1 ++ "," ++
                  nlIndentGo pre ind mdepth ++ mp.1, mp.2)
            | '\x7d' :: rem4 =>
              some (('"' :: kp.1).asString ++ ": " ++ vp.1, rem4)
            | _ => none
        | _ => none
    | _ => none

/-- Items of a JSON array whose item lines sit at indent level `mdepth`:
a value, then either `','` and further items or the closing `']'`. -/
def indentItemsGo (pre ind : String) (fuel mdepth : Nat) (cs : List Char) :
    Option (String × List Char) :=
  match fuel with
  | 0 => none
  | fuel + 1 =>
    match indentValueGo pre ind fuel mdepth cs with
    | none => none
    | some vp =>
      match skipWS vp.2 with
      | ',' :: rem2 =>
        match indentItemsGo pre ind fuel mdepth (skipWS rem2) with
        | none => none
        | some mp => some (vp.1 ++ "," ++ nlIndentGo pre ind mdepth ++ mp.1, mp.2)
      | ']' :: rem2 => some (vp.1, rem2)
      | _ => none

end

/-- Model of Go `json.Indent(dst, src, prefix, indent)`: `none` exactly when
`src` is not one valid JSON value (with optional surrounding whitespace),
otherwise the re-indented text. -/
def jsonIndentGo (src pre ind : String) : Option String :=
  let cs := skipWS src.toList
  match indentValueGo pre ind (2 * cs.length + 2) 0 cs with
  | none => none
  | some p => if skipWS p.2 = [] then some p.1 else none

/-- Embedding of `printMessage` (main.go lines 174-181), returning the text
written to standard output for one received frame: the indented form after a
successful `json.Indent` with prefix `""` and indent two spaces, the raw
bytes otherwise. -/
def printMessage (msg : String) : String :=
  match jsonIndentGo msg "" "  " with
  | some formatted => "recv:\n" ++ formatted ++ "\n"
  | none => "recv: " ++ msg ++ "\n"

/-! ### Small helpers for stating the claims -/

/-- Whether an `Except` result is an error. -/
def isErrE {ε α : Type} : Except ε α → Bool
  | .error _ => true
  | .ok _ => false

/-- Specification-side account of duplicate names among the trailing
arguments (claim C10): the value part of the last token whose name part
(the text before the first `'='`) equals `k`. -/
def lastValueSpec (k : String) : List String → Option String
  | [] => none
  | arg :: rest =>
    match lastValueSpec k rest with
    | some v => some v
    | none =>
      let p := splitN2EqGo arg
      if p.1 = k then some p.2 else none

/-! ## Supporting lemmas -/

theorem isPrefixOf_append_self (l t : List Char) : l.isPrefixOf (l ++ t) = true := by
  induction l with
  | nil => simp [List.isPrefixOf]
  | cons a as ih => simp [List.isPrefixOf, ih]

theorem toList_append (s t : String) : (s ++ t).toList = s.toList ++ t.toList := by
  simp [String.toList]

theorem hasPrefixGo_append (pre rest : String) :
    hasPrefixGo (pre ++ rest) pre = true := by
  simp only [hasPrefixGo, toList_append]
  exact isPrefixOf_append_self _ _

theorem hasSuffixGo_append (a suf : String) :
    hasSuffixGo (a ++ suf) suf = true := by
  simp only [hasSuffixGo, List.isSuffixOf, toList_append, List.reverse_append]
  exact isPrefixOf_append_self _ _

/-! ## Claim theorems -/

/-- C1: for every base URL whose scheme is `ws` or `wss` and whose host is
non-empty, `buildURL` succeeds and returns a URL string whose scheme equals
the input scheme, whose path component begins with `/` (prefixing `/` when
the given path lacks one), and whose host carries the override port when the
port argument is positive; in particular base `ws://localhost`, path
`chat`, port `9000` yields `ws://localhost:9000/chat`. -/
theorem buildURL_valid_spec :
    (∀ (u : GoURL) (path : String) (port : Int),
      (u.scheme = "ws" ∨ u.scheme = "wss") → u.host ≠ "" →
      ∃ host2 path2,
        buildURLFrom (some u) path port = .ok (u.scheme ++ "://" ++ host2 ++ path2) ∧
        path2 = (if hasPrefixGo path "/" then path else "/" ++ path) ∧
        hasPrefixGo path2 "/" = true ∧
        (0 < port →
          host2 = joinHostPortGo (stripPortGo u.host) (toString port) ∧
          hasSuffixGo host2 (":" ++ toString port) = true) ∧
        (¬ 0 < port → host2 = u.host)) ∧
    buildURL "ws://localhost" "chat" 9000 = .ok "ws://localhost:9000/chat" := by
  constructor
  · intro u path port hs hh
    have hs1 : ¬ u.scheme = "" := by rcases hs with h | h <;> simp [h]
    have hs2 : ¬ (u.scheme ≠ "ws" ∧ u.scheme ≠ "wss") := by
      rcases hs with h | h <;> simp [h]
    refine ⟨if 0 < port then joinHostPortGo (stripPortGo u.host) (toString port) else u.host,
      if hasPrefixGo path "/" then path else "/" ++ path, ?_, rfl, ?_, ?_, ?_⟩
    · simp only [buildURLFrom, if_neg hs1, if_neg hs2, if_neg hh]
    · by_cases hp : hasPrefixGo path "/" = true
      · simp [hp]
      · simp only [if_neg hp]
        exact hasPrefixGo_append "/" path
    · intro hport
      refine ⟨by simp [hport], ?_⟩
      simp only [if_pos hport, joinHostPortGo]
      by_cases hc : (stripPortGo u.host).toList.contains ':' = true
      · simp only [if_pos hc]
        have hjoin : ("]:" : String) = "]" ++ ":" := rfl
        have step : ("]:" : String) ++ toString port = "]" ++ (":" ++ toString port) := by
          rw [hjoin, String.append_assoc]
        have key : "[" ++ stripPortGo u.host ++ "]:" ++ toString port =
            ("[" ++ stripPortGo u.host ++ "]") ++ (":" ++ toString port) :=
          calc "[" ++ stripPortGo u.host ++ "]:" ++ toString port
              = ("[" ++ stripPortGo u.host) ++ ("]:" ++ toString port) := by
                rw [String.append_assoc]
            _ = ("[" ++ stripPortGo u.host) ++ ("]" ++ (":" ++ toString port)) := by
                rw [step]
            _ = ("[" ++ stripPortGo u.host ++ "]") ++ (":" ++ toString port) := by
                rw [← String.append_assoc]
        rw [key]
        exact hasSuffixGo_append _ _
      · simp only [if_neg hc]
        rw [String.append_assoc]
        exact hasSuffixGo_append _ _
    · intro hport
      simp [hport]
  · rfl

/-- C2: `buildURL` returns an error exactly when the base URL fails to
parse, its scheme is empty, its scheme is neither `ws` nor `wss` (for
example `http`), or its host is empty; for every input satisfying none of
these it succeeds. -/
theorem buildURL_error_iff :
    (∀ (parsed : Option GoURL) (path : String) (port : Int),
      (isErrE (buildURLFrom parsed path port) = true ↔
        (parsed = none ∨ ∃ u, parsed = some u ∧
          (u.scheme = "" ∨ (u.scheme ≠ "ws" ∧ u.scheme ≠ "wss") ∨ u.host = "")))) ∧
    (∀ (parsed : Option GoURL) (path : String) (port : Int),
      isErrE (buildURLFrom parsed path port) = false →
      ∃ s, buildURLFrom parsed path port = .ok s) ∧
    isErrE (buildURL "http://example.com" "chat" 0) = true := by
  refine ⟨?_, ?_, by decide⟩
  · intro parsed path port
    match parsed with
    | none => simp [buildURLFrom, isErrE]
    | some u =>
      simp only [buildURLFrom]
      by_cases h1 : u.scheme = ""
      · rw [if_pos h1]; simp [isErrE, h1]
      · rw [if_neg h1]
        by_cases h2 : u.scheme ≠ "ws" ∧ u.scheme ≠ "wss"
        · rw [if_pos h2]; simp [isErrE, h2]
        · rw [if_neg h2]
          by_cases h3 : u.host = ""
          · rw [if_pos h3]; simp [isErrE, h3]
          · rw [if_neg h3]
            simp [isErrE, h1, h2, h3]
  · intro parsed path port h
    cases hx : buildURLFrom parsed path port with
    | ok s => exact ⟨s, rfl⟩
    | error e => rw [hx] at h; simp [isErrE] at h

theorem buildURLFrom_ok_shape {u : GoURL} {path s : String} {port : Int}
    (h : buildURLFrom (some u) path port = .ok s) :
    (u.scheme = "ws" ∨ u.scheme = "wss") ∧
    s = u.scheme ++ "://" ++
      (if 0 < port then joinHostPortGo (stripPortGo u.host) (toString port) else u.host) ++
      (if hasPrefixGo path "/" then path else "/" ++ path) := by
  simp only [buildURLFrom] at h
  by_cases h1 : u.scheme = ""
  · rw [if_pos h1] at h; simp at h
  · rw [if_neg h1] at h
    by_cases h2 : u.scheme ≠ "ws" ∧ u.scheme ≠ "wss"
    · rw [if_pos h2] at h; simp at h
    · rw [if_neg h2] at h
      by_cases h3 : u.host = ""
      · rw [if_pos h3] at h; simp at h
      · rw [if_neg h3] at h
        refine ⟨?_, ?_⟩
        · rcases not_and_or.mp h2 with h | h
          · exact Or.inl (not_not.mp h)
          · exact Or.inr (not_not.mp h)
        · exact (Except.ok.inj h).symm

theorem runExec_ok_shape {opts : Options} {env : NetEnv} {fp : String × String}
    (hpf : runPreflight opts = .ok fp) (hd : env.dial = .ok ()) (hs : env.send = .ok ()) :
    runExec opts env =
      (if opts.readTimeout > 0 ∧ env.timerFires = true then
        ([Event.connected, Event.sent fp.2, Event.recvStarted] ++
            env.reads.map Event.received ++
          [Event.timeoutDiag, Event.closeSent closeNormalClosure "timeout" 1] ++
          env.readsAfterClose.map Event.received ++
          [Event.readFinished env.readErr], .ok ())
      else
        ([Event.connected, Event.sent fp.2, Event.recvStarted] ++
            env.reads.map Event.received ++
          [Event.readFinished env.readErr], .ok ())) := by
  simp only [runExec, hpf, hd, hs]

theorem countP_close_map_received (l : List String) :
    List.countP isCloseSent (l.map Event.received) = 0 := by
  induction l with
  | nil => rfl
  | cons a t ih => simp [List.countP_cons, isCloseSent, ih]

theorem countP_close_comp (l : List String) :
    List.countP (isCloseSent ∘ Event.received) l = 0 := by
  induction l with
  | nil => rfl
  | cons a t ih => simp [List.countP_cons, isCloseSent, ih]

theorem runExec_snd_mismatch {opts : Options} {env : NetEnv}
    (h : (runExec opts env).2 = .error .schemeMismatch) :
    runPreflight opts = .error .schemeMismatch := by
  rcases hp : runPreflight opts with e | fp
  · simp [runExec, hp] at h
    rw [h]
  · rcases hd : env.dial with e | u
    · simp [runExec, hp, hd] at h
    · cases u
      rcases hs : env.send with e | u'
      · simp [runExec, hp, hd, hs] at h
      · cases u'
        rw [runExec_ok_shape hp hd hs] at h
        by_cases ht : opts.readTimeout > 0 ∧ env.timerFires = true
        · rw [if_pos ht] at h; simp at h
        · rw [if_neg ht] at h; simp at h

/-- C4: if `-insecure-skip-verify` is set and the built URL's scheme is not
`wss`, `run` fails with the scheme-mismatch error before any dial or network
activity (the trace is empty); if the flag is unset, or the scheme is `wss`,
that error is never raised. -/
theorem insecure_requires_wss :
    (∀ (opts : Options) (env : NetEnv) (full : String),
      buildURL opts.baseURL opts.path opts.port = .ok full →
      opts.insecureTLS = true → hasPrefixGo full "wss://" = false →
      runExec opts env = ([], .error .schemeMismatch)) ∧
    (∀ opts : Options, opts.insecureTLS = false →
      ∀ env : NetEnv, (runExec opts env).2 ≠ .error .schemeMismatch) ∧
    (∀ (opts : Options) (u : GoURL),
      urlParse opts.baseURL = some u → u.scheme = "wss" →
      ∀ env : NetEnv, (runExec opts env).2 ≠ .error .schemeMismatch) := by
  refine ⟨?_, ?_, ?_⟩
  · intro opts env full hbuild hins hpre
    have hpf : runPreflight opts = .error .schemeMismatch := by
      simp only [runPreflight, hbuild]
      rw [if_pos ⟨hins, hpre⟩]
    simp [runExec, hpf]
  · intro opts hins env hcontra
    have hm := runExec_snd_mismatch hcontra
    rcases hb : buildURL opts.baseURL opts.path opts.port with e | full
    · simp [runPreflight, hb] at hm
    · simp [runPreflight, hb, hins, jsonMarshalGo] at hm
  · intro opts u hu hscheme env hcontra
    have hm := runExec_snd_mismatch hcontra
    rcases hb : buildURL opts.baseURL opts.path opts.port with e | full
    · simp [runPreflight, hb] at hm
    · have hb' : buildURLFrom (some u) opts.path opts.port = .ok full := by
        unfold buildURL at hb
        rw [hu] at hb
        exact hb
      have hshape := buildURLFrom_ok_shape hb'
      have hfull : hasPrefixGo full "wss://" = true := by
        rw [hshape.2, hscheme]
        have hws : ("wss" : String) ++ "://" = "wss://" := rfl
        rw [hws, String.append_assoc]
        exact hasPrefixGo_append _ _
      simp [runPreflight, hb, hfull, jsonMarshalGo] at hm

/-- C6: the payload write happens before the receive task starts: no
receive-task event ever precedes the `sent` event in a trace, and when the
send fails the run returns the send error with no receive step taken. -/
theorem send_before_receive :
    (∀ (opts : Options) (env : NetEnv),
      recvBeforeSend (runExec opts env).1 = false) ∧
    (∀ (opts : Options) (env : NetEnv) (fp : String × String) (e : String),
      runPreflight opts = .ok fp → env.dial = .ok () → env.send = .error e →
      runExec opts env = ([Event.connected], .error (.sendError e))) := by
  constructor
  · intro opts env
    rcases hp : runPreflight opts with e | fp
    · simp [runExec, hp, recvBeforeSend]
    · rcases hd : env.dial with e | u
      · simp [runExec, hp, hd, recvBeforeSend]
      · cases u
        rcases hs : env.send with e | u'
        · simp [runExec, hp, hd, hs, recvBeforeSend]
        · cases u'
          rw [runExec_ok_shape hp hd hs]
          by_cases ht : opts.readTimeout > 0 ∧ env.timerFires = true
          · rw [if_pos ht]
            simp [recvBeforeSend]
          · rw [if_neg ht]
            simp [recvBeforeSend]
  · intro opts env fp e hpf hd hs
    simp only [runExec, hpf, hd, hs]

/-- C7: when the read timeout is positive and the timer fires before the
receive task completes, the run sends exactly one close control frame, the
frame `(CloseNormalClosure, "timeout")` with a one-second write deadline,
prints the timeout diagnostic, still ends with the receive task's
termination, and returns success (exit code 0); when the read timeout is 0
no timer event occurs and the run waits for the receive task. -/
theorem timeout_close_behavior :
    ∀ (opts : Options) (env : NetEnv) (fp : String × String),
      runPreflight opts = .ok fp → env.dial = .ok () → env.send = .ok () →
      ((opts.readTimeout > 0 → env.timerFires = true →
        ((runExec opts env).1.countP isCloseSent = 1 ∧
         Event.closeSent closeNormalClosure "timeout" 1 ∈ (runExec opts env).1 ∧
         Event.timeoutDiag ∈ (runExec opts env).1 ∧
         (runExec opts env).1.getLast? = some (Event.readFinished env.readErr) ∧
         (runExec opts env).2 = .ok () ∧
         exitCodeOf (runExec opts env).2 = 0)) ∧
       (opts.readTimeout = 0 →
        ((runExec opts env).1.countP isCloseSent = 0 ∧
         Event.timeoutDiag ∉ (runExec opts env).1 ∧
         (runExec opts env).1.getLast? = some (Event.readFinished env.readErr) ∧
         (runExec opts env).2 = .ok () ∧
         exitCodeOf (runExec opts env).2 = 0))) := by
  intro opts env fp hpf hd hs
  rw [runExec_ok_shape hpf hd hs]
  constructor
  · intro ht htf
    rw [if_pos ⟨ht, htf⟩]
    refine ⟨?_, ?_, ?_, ?_, rfl, rfl⟩
    · simp [List.countP_append, List.countP_cons, countP_close_map_received,
        countP_close_comp, isCloseSent]
    · simp
    · simp
    · exact List.getLast?_concat _
  · intro h0
    have hneg : ¬ (opts.readTimeout > 0 ∧ env.timerFires = true) := by
      rintro ⟨hgt, -⟩
      rw [h0] at hgt
      exact lt_irrefl 0 hgt
    rw [if_neg hneg]
    refine ⟨?_, ?_, ?_, rfl, rfl⟩
    · simp [List.countP_append, List.countP_cons, countP_close_map_received,
        countP_close_comp, isCloseSent]
    · simp
    · exact List.getLast?_concat _

/-- C8: every post-send read error or closure is treated as normal
completion: whenever the send succeeded, `run` returns no error, the exit
code is 0, and the trace ends with the receive loop's diagnostic event. -/
theorem read_termination_normal :
    ∀ (opts : Options) (env : NetEnv) (fp : String × String),
      runPreflight opts = .ok fp → env.dial = .ok () → env.send = .ok () →
      (runExec opts env).2 = .ok () ∧
      exitCodeOf (runExec opts env).2 = 0 ∧
      Event.readFinished env.readErr ∈ (runExec opts env).1 ∧
      (runExec opts env).1.getLast? = some (Event.readFinished env.readErr) := by
  intro opts env fp hpf hd hs
  rw [runExec_ok_shape hpf hd hs]
  by_cases ht : opts.readTimeout > 0 ∧ env.timerFires = true
  · rw [if_pos ht]
    refine ⟨rfl, rfl, by simp, List.getLast?_concat _⟩
  · rw [if_neg ht]
    refine ⟨rfl, rfl, by simp, List.getLast?_concat _⟩

theorem parseDataGo_cons (arg : String) (rest : List String)
    (m : List (String × String)) :
    parseDataGo (arg :: rest) m =
      (if containsCharGo arg '=' = false then
        .error ("invalid data " ++ arg ++ " (want Name=Value)")
      else if trimSpaceGo (splitN2EqGo arg).1 = "" then
        .error ("missing name in " ++ arg)
      else parseDataGo rest (mapInsertGo m (splitN2EqGo arg).1 (splitN2EqGo arg).2)) :=
  rfl

/-- C3: each trailing token must contain `'='` and is split at the first
`'='` with a non-empty (after trimming) name part; `user=alice` yields
`("user", "alice")`, `a=b=c` yields `("a", "b=c")`, `novalue` and `=x` are
rejected. -/
theorem parse_token_rules :
    (∀ (arg : String) (rest : List String) (m : List (String × String)),
      parseDataGo (arg :: rest) m =
        if containsCharGo arg '=' = false then
          .error ("invalid data " ++ arg ++ " (want Name=Value)")
        else if trimSpaceGo (splitN2EqGo arg).1 = "" then
          .error ("missing name in " ++ arg)
        else parseDataGo rest (mapInsertGo m (splitN2EqGo arg).1 (splitN2EqGo arg).2)) ∧
    parseArgsGo ["user=alice"] = .ok [("user", "alice")] ∧
    parseArgsGo ["a=b=c"] = .ok [("a", "b=c")] ∧
    splitN2EqGo "a=b=c" = ("a", "b=c") ∧
    parseArgsGo ["novalue"] = .error "invalid data novalue (want Name=Value)" ∧
    parseArgsGo ["=x"] = .error "missing name in =x" := by
  exact ⟨fun arg rest m => parseDataGo_cons arg rest m, rfl, rfl, rfl, rfl, rfl⟩

/-- C9: a received frame that is valid JSON is printed as `recv:` followed
by a newline and the two-space re-indented JSON, any other frame as
`recv: ` followed by the raw bytes; in particular the indented form of the
frame consisting of the object with member `"x": 1` and the raw form of the
frame `hello`. -/
theorem recv_output_format :
    (∀ msg : String,
      (∀ f, jsonIndentGo msg "" "  " = some f →
        printMessage msg = "recv:\n" ++ f ++ "\n") ∧
      (jsonIndentGo msg "" "  " = none →
        printMessage msg = "recv: " ++ msg ++ "\n")) ∧
    printMessage "\x7b\"x\":1\x7d" = "recv:\n\x7b\n  \"x\": 1\n\x7d\n" ∧
    printMessage "hello" = "recv: hello\n" := by
  refine ⟨?_, rfl, rfl⟩
  intro msg
  constructor
  · intro f hf
    simp [printMessage, hf]
  · intro hf
    simp [printMessage, hf]

theorem mapLookupGo_append (m m' : List (String × String)) (k : String) :
    mapLookupGo (m ++ m') k =
      (match mapLookupGo m k with
       | some w => some w
       | none => mapLookupGo m' k) := by
  induction m with
  | nil => simp [mapLookupGo]
  | cons p t ih =>
    by_cases hp : p.1 = k
    · simp [mapLookupGo, hp]
    · simp [mapLookupGo, hp, ih]

theorem mapLookupGo_none_of_any_false {m : List (String × String)} {k : String}
    (h : m.any (fun p => decide (p.1 = k)) = false) :
    mapLookupGo m k = none := by
  induction m with
  | nil => rfl
  | cons p t ih =>
    simp only [List.any_cons, Bool.or_eq_false_iff] at h
    have hp : ¬ p.1 = k := by simpa using h.1
    simp [mapLookupGo, hp, ih h.2]

theorem mapLookupGo_replace_self {m : List (String × String)} {k v : String}
    (h : m.any (fun p => decide (p.1 = k)) = true) :
    mapLookupGo (m.map (fun p => if p.1 = k then (k, v) else p)) k = some v := by
  induction m with
  | nil => simp at h
  | cons p t ih =>
    by_cases hp : p.1 = k
    · simp [mapLookupGo, hp]
    · simp only [List.any_cons, Bool.or_eq_true_iff] at h
      rcases h with h | h
      · exact absurd (of_decide_eq_true h) hp
      · simp [mapLookupGo, hp, ih h]

theorem mapLookupGo_map_ne (m : List (String × String)) {k k' : String} (v : String)
    (hne : k ≠ k') :
    mapLookupGo (m.map (fun p => if p.1 = k then (k, v) else p)) k' =
      mapLookupGo m k' := by
  induction m with
  | nil => rfl
  | cons p t ih =>
    by_cases hp : p.1 = k
    · simp [mapLookupGo, hp, hne, ih]
    · simp [mapLookupGo, hp, ih]

theorem mapLookupGo_insert (m : List (String × String)) (k v k' : String) :
    mapLookupGo (mapInsertGo m k v) k' =
      (if k = k' then some v else mapLookupGo m k') := by
  unfold mapInsertGo
  by_cases hany : m.any (fun p => decide (p.1 = k)) = true
  · rw [if_pos hany]
    by_cases hk : k = k'
    · subst hk
      rw [if_pos rfl]
      exact mapLookupGo_replace_self hany
    · rw [if_neg hk]
      exact mapLookupGo_map_ne m v hk
  · rw [if_neg hany]
    rw [mapLookupGo_append]
    have hnone := mapLookupGo_none_of_any_false (Bool.eq_false_iff.mpr hany)
    by_cases hk : k = k'
    · subst hk
      rw [hnone]
      simp [mapLookupGo]
    · rw [if_neg hk]
      cases hlk : mapLookupGo m k' with
      | some w => simp
      | none => simp [mapLookupGo, hk]

theorem mapInsertGo_keys (m : List (String × String)) (k v : String) :
    (mapInsertGo m k v).map Prod.fst =
      (if m.any (fun p => decide (p.1 = k)) = true then m.map Prod.fst
       else m.map Prod.fst ++ [k]) := by
  unfold mapInsertGo
  by_cases hany : m.any (fun p => decide (p.1 = k)) = true
  · rw [if_pos hany, if_pos hany, List.map_map]
    refine List.map_congr_left ?_
    intro p hp
    by_cases h : p.1 = k
    · simp [h]
    · simp [h]
  · rw [if_neg hany, if_neg hany]
    simp

theorem mapInsertGo_keys_nodup {m : List (String × String)} (k v : String)
    (h : (m.map Prod.fst).Nodup) : ((mapInsertGo m k v).map Prod.fst).Nodup := by
  rw [mapInsertGo_keys]
  by_cases hany : m.any (fun p => decide (p.1 = k)) = true
  · rw [if_pos hany]
    exact h
  · rw [if_neg hany]
    have hk : k ∉ m.map Prod.fst := by
      intro hmem
      rcases List.mem_map.mp hmem with ⟨p, hp, hpk⟩
      have : m.any (fun p => decide (p.1 = k)) = true :=
        List.any_eq_true.mpr ⟨p, hp, decide_eq_true hpk⟩
      exact hany this
    simp [List.nodup_append, h, hk]

theorem mapInsertGo_mem_key {m : List (String × String)} {k v : String}
    {kv : String × String} (h : kv ∈ mapInsertGo m k v) :
    kv.1 ∈ m.map Prod.fst ∨ kv.1 = k := by
  unfold mapInsertGo at h
  by_cases hany : m.any (fun p => decide (p.1 = k)) = true
  · rw [if_pos hany] at h
    rcases List.mem_map.mp h with ⟨p, hp, hpk⟩
    by_cases hcase : p.1 = k
    · rw [if_pos hcase] at hpk
      right
      rw [← hpk]
    · rw [if_neg hcase] at hpk
      left
      rw [← hpk]
      exact List.mem_map_of_mem Prod.fst hp
  · rw [if_neg hany] at h
    rcases List.mem_append.mp h with h | h
    · exact Or.inl (List.mem_map_of_mem Prod.fst h)
    · simp at h
      rw [h]
      exact Or.inr rfl

theorem parseDataGo_ok_aux :
    ∀ (args : List String) (m0 : List (String × String)),
      (∀ arg ∈ args,
        containsCharGo arg '=' = true ∧ trimSpaceGo (splitN2EqGo arg).1 ≠ "") →
      ∃ m, parseDataGo args m0 = .ok m ∧
        ((m0.map Prod.fst).Nodup → (m.map Prod.fst).Nodup) ∧
        (∀ k, mapLookupGo m k =
          (match lastValueSpec k args with
           | some v => some v
           | none => mapLookupGo m0 k)) ∧
        (∀ kv ∈ m, kv.1 ∈ m0.map Prod.fst ∨
          ∃ arg ∈ args, kv.1 = (splitN2EqGo arg).1) := by
  intro args
  induction args with
  | nil =>
    intro m0 _
    refine ⟨m0, rfl, fun h => h, ?_, ?_⟩
    · intro k
      simp [lastValueSpec]
    · intro kv hkv
      exact Or.inl (List.mem_map_of_mem Prod.fst hkv)
  | cons arg rest ih =>
    intro m0 hvalid
    have hv := hvalid arg (List.mem_cons_self arg rest)
    have hstep : parseDataGo (arg :: rest) m0 =
        parseDataGo rest (mapInsertGo m0 (splitN2EqGo arg).1 (splitN2EqGo arg).2) := by
      rw [parseDataGo_cons]
      rw [if_neg (by simp [hv.1]), if_neg hv.2]
    obtain ⟨m, hm, hnd, hlk, hkeys⟩ :=
      ih (mapInsertGo m0 (splitN2EqGo arg).1 (splitN2EqGo arg).2)
        (fun a ha => hvalid a (List.mem_cons_of_mem arg ha))
    refine ⟨m, by rw [hstep]; exact hm, ?_, ?_, ?_⟩
    · intro h0
      exact hnd (mapInsertGo_keys_nodup _ _ h0)
    · intro k
      rw [hlk k]
      cases hlast : lastValueSpec k rest with
      | some w => simp [lastValueSpec, hlast]
      | none =>
        simp only [lastValueSpec, hlast]
        rw [mapLookupGo_insert]
        by_cases hk : (splitN2EqGo arg).1 = k
        · simp [hk]
        · simp [hk]
    · intro kv hkv
      rcases hkeys kv hkv with h | ⟨a, ha, he⟩
      · rw [mapInsertGo_keys] at h
        by_cases hany : m0.any (fun p => decide (p.1 = (splitN2EqGo arg).1)) = true
        · rw [if_pos hany] at h
          exact Or.inl h
        · rw [if_neg hany] at h
          rcases List.mem_append.mp h with h | h
          · exact Or.inl h
          · simp at h
            exact Or.inr ⟨arg, List.mem_cons_self arg rest, h⟩
      · exact Or.inr ⟨a, List.mem_cons_of_mem arg ha, he⟩

/-- C10: when the same name occurs in several `Name=Value` tokens, parsing
succeeds, the resulting mapping binds that name exactly once, to the value
of the last such token, and the stored name is the untrimmed left side of
the token (trimming is applied only to the non-emptiness check). -/
theorem duplicate_names_last_wins :
    (∀ args : List String,
      (∀ arg ∈ args,
        containsCharGo arg '=' = true ∧ trimSpaceGo (splitN2EqGo arg).1 ≠ "") →
      ∃ m, parseArgsGo args = .ok m ∧
        (m.map Prod.fst).Nodup ∧
        (∀ k, mapLookupGo m k = lastValueSpec k args) ∧
        (∀ kv ∈ m, ∃ arg ∈ args, kv.1 = (splitN2EqGo arg).1)) ∧
    parseArgsGo ["user=alice", "user=bob"] = .ok [("user", "bob")] ∧
    parseArgsGo [" a=1"] = .ok [(" a", "1")] := by
  refine ⟨?_, rfl, rfl⟩
  intro args hvalid
  obtain ⟨m, hm, hnd, hlk, hkeys⟩ := parseDataGo_ok_aux args [] hvalid
  refine ⟨m, hm, hnd (by simp), ?_, ?_⟩
  · intro k
    rw [hlk k]
    cases hlast : lastValueSpec k args with
    | some w => rfl
    | none => rfl
  · intro kv hkv
    rcases hkeys kv hkv with h | h
    · simp at h
    · exact h

theorem sorted_nodupkeys_perm_eq :
    ∀ (l1 l2 : List (String × String)),
      l1.Perm l2 →
      l1.Pairwise (fun a b => a.1 ≤ b.1) →
      l2.Pairwise (fun a b => a.1 ≤ b.1) →
      (l1.map Prod.fst).Nodup →
      l1 = l2 := by
  intro l1
  induction l1 with
  | nil =>
    intro l2 hp _ _ _
    exact hp.nil_eq
  | cons a t1 ih =>
    intro l2 hp hs1 hs2 hnd
    cases l2 with
    | nil => exact absurd hp.eq_nil (by simp)
    | cons b t2 =>
      have hamem : a ∈ b :: t2 := hp.mem_iff.mp (List.mem_cons_self a t1)
      have hbmem : b ∈ a :: t1 := hp.mem_iff.mpr (List.mem_cons_self b t2)
      have hab : a = b := by
        rcases List.mem_cons.mp hamem with h | hat2
        · exact h
        · rcases List.mem_cons.mp hbmem with h | hbt1
          · exact h.symm
          · have h1 : a.1 ≤ b.1 := (List.pairwise_cons.mp hs1).1 b hbt1
            have h2 : b.1 ≤ a.1 := (List.pairwise_cons.mp hs2).1 a hat2
            have hkey : a.1 = b.1 := le_antisymm h1 h2
            have hmem : a.1 ∈ t1.map Prod.fst := by
              rw [hkey]
              exact List.mem_map_of_mem Prod.fst hbt1
            have : a.1 ∉ t1.map Prod.fst := by
              have := hnd
              simp only [List.map_cons, List.nodup_cons] at this
              exact this.1
            exact absurd hmem this
      subst hab
      have ht : t1.Perm t2 := hp.cons_inv
      have : t1 = t2 := by
        refine ih t2 ht (List.pairwise_cons.mp hs1).2 (List.pairwise_cons.mp hs2).2 ?_
        have := hnd
        simp only [List.map_cons, List.nodup_cons] at this
        exact this.2
      rw [this]

/-- C5: payload serialization is a deterministic function of the mapping's
contents: any two mappings with unique keys holding the same key-value pairs
(in any insertion order) serialize to the same JSON object, and for
string-keyed, string-valued data serialization always succeeds, so the
encoding-error branch of `run` is unreachable. -/
theorem payload_order_independent :
    (∀ m1 m2 : List (String × String),
      (m1.map Prod.fst).Nodup → m1.Perm m2 →
      jsonMarshalMapGo m1 = jsonMarshalMapGo m2) ∧
    (∀ m : List (String × String), jsonMarshalGo m = .ok (jsonMarshalMapGo m)) ∧
    (∀ (opts : Options) (e : String),
      runPreflight opts ≠ .error (.encodingError e)) := by
  refine ⟨?_, fun m => rfl, ?_⟩
  · intro m1 m2 hnd hperm
    have htrans : ∀ a b c : String × String,
        (fun a b : String × String => decide (a.1 ≤ b.1)) a b →
        (fun a b : String × String => decide (a.1 ≤ b.1)) b c →
        (fun a b : String × String => decide (a.1 ≤ b.1)) a c := by
      intro a b c hab hbc
      simp only [decide_eq_true_iff] at hab hbc ⊢
      exact le_trans hab hbc
    have htotal : ∀ a b : String × String,
        ((fun a b : String × String => decide (a.1 ≤ b.1)) a b ||
         (fun a b : String × String => decide (a.1 ≤ b.1)) b a) = true := by
      intro a b
      simp only [Bool.or_eq_true, decide_eq_true_iff]
      exact le_total a.1 b.1
    have hs1 : (sortEntriesGo m1).Pairwise (fun a b : String × String => a.1 ≤ b.1) := by
      refine List.Pairwise.imp ?_ (List.sorted_mergeSort htrans htotal m1)
      intro a b h
      exact of_decide_eq_true h
    have hs2 : (sortEntriesGo m2).Pairwise (fun a b : String × String => a.1 ≤ b.1) := by
      refine List.Pairwise.imp ?_ (List.sorted_mergeSort htrans htotal m2)
      intro a b h
      exact of_decide_eq_true h
    have hperm12 : (sortEntriesGo m1).Perm (sortEntriesGo m2) :=
      ((List.mergeSort_perm m1 _).trans hperm).trans (List.mergeSort_perm m2 _).symm
    have hnd1 : ((sortEntriesGo m1).map Prod.fst).Nodup :=
      (((List.mergeSort_perm m1 _).map Prod.fst).nodup_iff).mpr hnd
    have hsort : sortEntriesGo m1 = sortEntriesGo m2 :=
      sorted_nodupkeys_perm_eq _ _ hperm12 hs1 hs2 hnd1
    unfold jsonMarshalMapGo
    rw [hsort]
  · intro opts e hcontra
    unfold runPreflight at hcontra
    rcases hb : buildURL opts.baseURL opts.path opts.port with e2 | full
    · rw [hb] at hcontra
      simp at hcontra
    · rw [hb] at hcontra
      by_cases hc : opts.insecureTLS = true ∧ hasPrefixGo full "wss://" = false
      · simp [hc, jsonMarshalGo] at hcontra
      · simp [hc, jsonMarshalGo] at hcontra

/-! ## Witnesses -/

theorem jsonMarshalMapGo_nil : jsonMarshalMapGo [] = "\x7b\x7d" := by
  simp only [jsonMarshalMapGo, sortEntriesGo, List.mergeSort_nil, List.map_nil]
  rfl

theorem runPreflight_concrete (dt rt : Int) :
    runPreflight ⟨"ws://localhost", "chat", 0, dt, rt, [], false⟩ =
      .ok ("ws://localhost/chat", "\x7b\x7d") := by
  have h1 : buildURL "ws://localhost" "chat" 0 = .ok "ws://localhost/chat" := rfl
  simp [runPreflight, h1, jsonMarshalGo, jsonMarshalMapGo_nil]


theorem buildURL_valid_spec_witness :
    ∃ host2 path2,
      buildURLFrom (some ⟨"ws", "localhost", ""⟩) "chat" 9000 =
        .ok ("ws" ++ "://" ++ host2 ++ path2) ∧
      path2 = (if hasPrefixGo "chat" "/" then "chat" else "/" ++ "chat") ∧
      hasPrefixGo path2 "/" = true ∧
      (0 < (9000 : Int) →
        host2 = joinHostPortGo (stripPortGo "localhost") (toString (9000 : Int)) ∧
        hasSuffixGo host2 (":" ++ toString (9000 : Int)) = true) ∧
      (¬ 0 < (9000 : Int) → host2 = "localhost") :=
  buildURL_valid_spec.1 ⟨"ws", "localhost", ""⟩ "chat" 9000 (Or.inl rfl) (by decide)

theorem buildURL_error_iff_witness :
    ∃ s, buildURLFrom (some ⟨"ws", "localhost", ""⟩) "chat" 0 = .ok s :=
  buildURL_error_iff.2.1 (some ⟨"ws", "localhost", ""⟩) "chat" 0 (by decide)

theorem insecure_requires_wss_witness :
    runExec ⟨"ws://localhost", "chat", 0, 0, 0, [], true⟩
        ⟨.ok (), .ok (), [], false, [], "eof"⟩ =
      ([], .error .schemeMismatch) :=
  insecure_requires_wss.1 ⟨"ws://localhost", "chat", 0, 0, 0, [], true⟩
    ⟨.ok (), .ok (), [], false, [], "eof"⟩ "ws://localhost/chat" (by rfl) rfl (by rfl)

theorem payload_order_independent_witness :
    jsonMarshalMapGo [("b", "2"), ("a", "1")] =
      jsonMarshalMapGo [("a", "1"), ("b", "2")] ∧
    runPreflight ⟨"ws://localhost", "chat", 0, 0, 0, [], false⟩ ≠
      .error (.encodingError "boom") :=
  ⟨payload_order_independent.1 [("b", "2"), ("a", "1")] [("a", "1"), ("b", "2")]
      (by decide) (List.Perm.swap ("a", "1") ("b", "2") []),
   payload_order_independent.2.2 ⟨"ws://localhost", "chat", 0, 0, 0, [], false⟩ "boom"⟩

theorem send_before_receive_witness :
    runExec ⟨"ws://localhost", "chat", 0, 0, 0, [], false⟩
        ⟨.ok (), .error "broken pipe", [], false, [], "x"⟩ =
      ([Event.connected], .error (.sendError "broken pipe")) :=
  send_before_receive.2 ⟨"ws://localhost", "chat", 0, 0, 0, [], false⟩
    ⟨.ok (), .error "broken pipe", [], false, [], "x"⟩
    ("ws://localhost/chat", "\x7b\x7d") "broken pipe" (runPreflight_concrete 0 0) rfl rfl

theorem timeout_close_behavior_witness :
    (runExec ⟨"ws://localhost", "chat", 0, 0, 1, [], false⟩
        ⟨.ok (), .ok (), [], true, [], "closed"⟩).1.countP isCloseSent = 1 ∧
    Event.closeSent closeNormalClosure "timeout" 1 ∈
      (runExec ⟨"ws://localhost", "chat", 0, 0, 1, [], false⟩
        ⟨.ok (), .ok (), [], true, [], "closed"⟩).1 ∧
    Event.timeoutDiag ∈
      (runExec ⟨"ws://localhost", "chat", 0, 0, 1, [], false⟩
        ⟨.ok (), .ok (), [], true, [], "closed"⟩).1 ∧
    (runExec ⟨"ws://localhost", "chat", 0, 0, 1, [], false⟩
        ⟨.ok (), .ok (), [], true, [], "closed"⟩).1.getLast? =
      some (Event.readFinished "closed") ∧
    (runExec ⟨"ws://localhost", "chat", 0, 0, 1, [], false⟩
        ⟨.ok (), .ok (), [], true, [], "closed"⟩).2 = .ok () ∧
    exitCodeOf (runExec ⟨"ws://localhost", "chat", 0, 0, 1, [], false⟩
        ⟨.ok (), .ok (), [], true, [], "closed"⟩).2 = 0 :=
  (timeout_close_behavior ⟨"ws://localhost", "chat", 0, 0, 1, [], false⟩
    ⟨.ok (), .ok (), [], true, [], "closed"⟩
    ("ws://localhost/chat", "\x7b\x7d") (runPreflight_concrete 0 1) rfl rfl).1 (by decide) rfl

theorem read_termination_normal_witness :
    (runExec ⟨"ws://localhost", "chat", 0, 0, 0, [], false⟩
        ⟨.ok (), .ok (), ["hi"], false, [], "websocket: close 1000 (normal)"⟩).2 =
      .ok () ∧
    exitCodeOf (runExec ⟨"ws://localhost", "chat", 0, 0, 0, [], false⟩
        ⟨.ok (), .ok (), ["hi"], false, [], "websocket: close 1000 (normal)"⟩).2 = 0 ∧
    Event.readFinished "websocket: close 1000 (normal)" ∈
      (runExec ⟨"ws://localhost", "chat", 0, 0, 0, [], false⟩
        ⟨.ok (), .ok (), ["hi"], false, [], "websocket: close 1000 (normal)"⟩).1 ∧
    (runExec ⟨"ws://localhost", "chat", 0, 0, 0, [], false⟩
        ⟨.ok (), .ok (), ["hi"], false, [], "websocket: close 1000 (normal)"⟩).1.getLast? =
      some (Event.readFinished "websocket: close 1000 (normal)") :=
  read_termination_normal ⟨"ws://localhost", "chat", 0, 0, 0, [], false⟩
    ⟨.ok (), .ok (), ["hi"], false, [], "websocket: close 1000 (normal)"⟩
    ("ws://localhost/chat", "\x7b\x7d") (runPreflight_concrete 0 0) rfl rfl

theorem recv_output_format_witness :
    printMessage "\x7b\"x\":1\x7d" = "recv:\n" ++ "\x7b\n  \"x\": 1\n\x7d" ++ "\n" ∧
    printMessage "hello" = "recv: " ++ "hello" ++ "\n" :=
  ⟨(recv_output_format.1 "\x7b\"x\":1\x7d").1 "\x7b\n  \"x\": 1\n\x7d" rfl,
   (recv_output_format.1 "hello").2 rfl⟩

theorem duplicate_names_last_wins_witness :
    ∃ m, parseArgsGo ["user=alice", "user=bob"] = .ok m ∧
      (m.map Prod.fst).Nodup ∧
      (∀ k, mapLookupGo m k = lastValueSpec k ["user=alice", "user=bob"]) ∧
      (∀ kv ∈ m, ∃ arg ∈ ["user=alice", "user=bob"], kv.1 = (splitN2EqGo arg).1) :=
  duplicate_names_last_wins.1 ["user=alice", "user=bob"] (by decide)

end PostWS
